import Mathlib

/- Verification of the extraction-and-cataloging pipeline of the
   reflex_mcp_server repository (src/populate_db.py together with the data
   model of src/models.py).

   Strings are modelled as `List Char`; file paths are modelled as lists of
   path segments (the components returned by pathlib `Path(p).parts`, which
   for the relative slash-joined paths built by populate_db.py are exactly
   the joined segments).  The Python regular-expression searches of
   populate_db.py are embedded as direct executable functions implementing
   the exact leftmost-position / backtracking-priority semantics of the
   CPython `re` module for the concrete patterns appearing in the source
   (greedy pieces try longer matches first, lazy pieces shorter ones, and
   the scan returns the match at the smallest starting position).  Case
   conversion (`str.title`) is modelled on its ASCII fragment. -/

namespace Reflex

/-- Python regex class `\s` (and the `str.strip` whitespace set) for `str`
    patterns: ASCII whitespace plus the Unicode whitespace characters. -/
def pySpace (c : Char) : Bool :=
  [' ', '\t', '\n', '\x0b', '\x0c', '\r',
   '\x1c', '\x1d', '\x1e', '\x1f', '\x85', '\xa0',
   ' ', ' ', ' ', ' ', ' ', ' ', ' ',
   ' ', ' ', ' ', ' ', ' ', ' ', ' ',
   ' ', ' ', '　'].contains c

/-- Python `str.strip()`: remove leading and trailing whitespace. -/
def pyStrip (s : List Char) : List Char :=
  ((s.dropWhile pySpace).reverse.dropWhile pySpace).reverse

/-- Python `str.replace(a, b)` for single-character `a`, `b`. -/
def pyReplace (a b : Char) (s : List Char) : List Char :=
  s.map (fun c => if c = a then b else c)

/-- Helper for `pyTitle`: the Boolean argument records whether the previous
    character was cased (a letter). -/
def pyTitleGo : Bool → List Char → List Char
  | _, [] => []
  | prevCased, c :: cs =>
    if c.isAlpha then
      (if prevCased then c.toLower else c.toUpper) :: pyTitleGo true cs
    else c :: pyTitleGo false cs

/-- Python `str.title()` (ASCII fragment): the first letter of every maximal
    letter run is uppercased, the following letters lowercased; all other
    characters pass through unchanged and reset the word boundary. -/
def pyTitle (s : List Char) : List Char := pyTitleGo false s

/-- First index at which `pat` occurs as a contiguous sublist of `s`
    (the position of the leftmost match of a lazy `(.*?)pat` tail). -/
def findSubIdx (pat : List Char) : List Char → Option Nat
  | [] => if pat.isPrefixOf [] then some 0 else none
  | c :: cs =>
    if pat.isPrefixOf (c :: cs) then some 0
    else (findSubIdx pat cs).map (· + 1)

/-- Python `pat in s` substring test. -/
def containsSub (pat s : List Char) : Bool := (findSubIdx pat s).isSome

/-- Return the first `some` produced by `f` along the list of candidates.
    Used to realise backtracking priority: candidates are listed in the
    order the regex engine tries them. -/
def firstSome {α β : Type} : List α → (α → Option β) → Option β
  | [], _ => none
  | a :: xs, f =>
    match f a with
    | some b => some b
    | none => firstSome xs f

/-- Try an (unanchored) single-position matcher at every position of the
    input, left to right — `re.search` without anchors. -/
def scanLeft {β : Type} (f : List Char → Option β) : List Char → Option β
  | [] => f []
  | c :: cs =>
    match f (c :: cs) with
    | some b => some b
    | none => scanLeft f cs

/-- The suffixes of `t` following each newline inside the maximal whitespace
    run at the head of `t`, in ascending order of the newline position.
    These are precisely the continuations a greedy `\s*` followed by a
    literal `\n` can produce. -/
def wsNlSplitsAsc : List Char → List (List Char)
  | [] => []
  | c :: cs =>
    if pySpace c then
      (if c = '\n' then [cs] else []) ++ wsNlSplitsAsc cs
    else []

/-- Continuations of `\s*\n` in backtracking-priority order (greedy: the
    latest newline in the whitespace run is tried first). -/
def wsNlSplitsDesc (t : List Char) : List (List Char) := (wsNlSplitsAsc t).reverse

/-- Continuations of a greedy `\s*` in backtracking-priority order: drop the
    whole maximal whitespace run first, then successively less. -/
def wsSplitsDesc : List Char → List (List Char)
  | [] => [[]]
  | c :: cs => if pySpace c then wsSplitsDesc cs ++ [c :: cs] else [c :: cs]

/-- Continuations of a greedy `\s+` in backtracking-priority order (at least
    one whitespace character must be consumed). -/
def wsPlusSplitsDesc : List Char → List (List Char)
  | [] => []
  | c :: cs => if pySpace c then wsSplitsDesc cs else []

/-- The closing delimiter `\n---` of the frontmatter pattern. -/
def fmClose : List Char := ['\n', '-', '-', '-']

/-- Single-position matcher for `re.search(r"---\s*\n(.*?)\n---", content,
    re.DOTALL)` (populate_db.py line 15): literal `---`, then greedy `\s*`
    up to a newline, then the lazy group runs to the first later `\n---`.
    Returns group(1). -/
def fmMatchAt : List Char → Option (List Char)
  | '-' :: '-' :: '-' :: t =>
    firstSome (wsNlSplitsDesc t) (fun u =>
      (findSubIdx fmClose u).map (fun b => u.take b))
  | _ => none

/-- `re.search` of the frontmatter pattern over the whole content. -/
def frontmatterSearch (content : List Char) : Option (List Char) :=
  scanLeft fmMatchAt content

/-- The literal `components:` of the frontmatter key pattern. -/
def componentsKey : List Char :=
  ['c', 'o', 'm', 'p', 'o', 'n', 'e', 'n', 't', 's', ':']

/-- The character class `[^\n]` (also the class `.` outside DOTALL mode). -/
def notNl (c : Char) : Bool := c ≠ '\n'

/-- Tail of the components pattern after the literal `-`: `\s*([^\n]+)` with
    a greedy `\s*` (backtracking) followed by the greedy group of non-newline
    characters. -/
def hyphenTail (v : List Char) : Option (List Char) :=
  firstSome (wsSplitsDesc v) (fun u =>
    match u.takeWhile notNl with
    | [] => none
    | g => some g)

/-- Single-position matcher for
    `re.search(r"components:\s*\n\s*-\s*([^\n]+)", frontmatter)`
    (populate_db.py line 19).  After `\s*\n`, the second `\s*` is greedy and
    must be followed by the literal `-`; since `-` is not whitespace only the
    maximal whitespace run can precede it.  Returns group(1). -/
def componentsMatchAt (s : List Char) : Option (List Char) :=
  if componentsKey.isPrefixOf s then
    firstSome (wsNlSplitsDesc (s.drop componentsKey.length)) (fun u =>
      match u.dropWhile pySpace with
      | '-' :: v => hyphenTail v
      | _ => none)
  else none

/-- `re.search` of the components pattern over the frontmatter body. -/
def componentsSearch (fm : List Char) : Option (List Char) :=
  scanLeft componentsMatchAt fm

/-- Single-position matcher for `re.search(r"^#\s+(.+?)$", content,
    re.MULTILINE)` (populate_db.py lines 25 and 132), to be tried at
    line-start positions only: literal `#`, greedy `\s+` (which may cross
    newlines), then the lazy single-line group up to `$`.  The group is the
    run of non-newline characters at the continuation; it must start with a
    character `.` can match, i.e. not a newline.  Returns group(1). -/
def headingMatchAt : List Char → Option (List Char)
  | [] => none
  | c :: t =>
    if c = '#' then
      firstSome (wsPlusSplitsDesc t) (fun u =>
        match u with
        | [] => none
        | d :: _ =>
          if d = '\n' then none else some (u.takeWhile notNl))
    else none

/-- Scan for a `^`-anchored multiline pattern: the matcher is tried exactly
    at the start of the string and right after every newline, left to
    right. -/
def bolScan (f : List Char → Option (List Char)) : Bool → List Char → Option (List Char)
  | atBol, [] => if atBol then f [] else none
  | atBol, c :: cs =>
    match (if atBol then f (c :: cs) else none) with
    | some b => some b
    | none => bolScan f (c = '\n') cs

/-- `re.search(r"^#\s+(.+?)$", content, re.MULTILINE)`, group(1). -/
def headingSearch (content : List Char) : Option (List Char) :=
  bolScan headingMatchAt true content

/-- Terminator test for the lazy description group: the alternation
    `(?:\n\n|\n#|$)` where `$` (single-line mode) matches at the end of the
    string or just before a final newline. -/
def termOK : List Char → Bool
  | [] => true
  | ['\n'] => true
  | '\n' :: '\n' :: _ => true
  | '\n' :: '#' :: _ => true
  | _ => false

/-- Lazy `(.+?)` under DOTALL with the terminator alternation: extend the
    group one character at a time and stop at the first position where a
    terminator matches.  `acc` holds the group read so far, reversed. -/
def lazyDotGo (acc : List Char) : List Char → Option (List Char)
  | [] => if termOK [] then some acc.reverse else none
  | c :: cs =>
    if termOK (c :: cs) then some acc.reverse
    else lazyDotGo (c :: acc) cs

/-- The capture `(.+?)(?:\n\n|\n#|$)` (DOTALL): at least one character. -/
def lazyCapture : List Char → Option (List Char)
  | [] => none
  | c :: cs => lazyDotGo [c] cs

/-- Tail `\s*(.+?)(?:\n\n|\n#|$)` of both description patterns: greedy `\s*`
    with backtracking, then the lazy capture. -/
def descTail (v : List Char) : Option (List Char) :=
  firstSome (wsSplitsDesc v) lazyCapture

/-- Single-position matcher for
    `re.search(rf"#\s+{re.escape(name)}\s*\n\s*(.+?)(?:\n\n|\n#|$)", content,
    re.DOTALL)` (populate_db.py line 32).  The pattern is unanchored: a `#`
    anywhere, `\s+`, the literal (escaped) name, `\s*\n`, then the
    description tail.  Returns group(1). -/
def descMatchAt (name : List Char) : List Char → Option (List Char)
  | [] => none
  | c :: t =>
    if c = '#' then
      firstSome (wsPlusSplitsDesc t) (fun u =>
        if name.isPrefixOf u then
          firstSome (wsNlSplitsDesc (u.drop name.length)) descTail
        else none)
    else none

/-- `re.search` of the per-name description pattern over the content. -/
def descSearch (content name : List Char) : Option (List Char) :=
  scanLeft (descMatchAt name) content

/-- Lazy `.+?\n` under DOTALL with the description tail as continuation: try
    each newline following at least one consumed character, shortest first,
    and fall through to the next newline when the tail fails. -/
def docDescGo : List Char → Option (List Char)
  | [] => none
  | c :: cs =>
    match (if c = '\n' then descTail cs else none) with
    | some b => some b
    | none => docDescGo cs

/-- Single-position matcher for
    `re.search(r"#\s+.+?\n\s*(.+?)(?:\n\n|\n#|$)", content, re.DOTALL)`
    (populate_db.py lines 152-154).  Returns group(1). -/
def docDescMatchAt : List Char → Option (List Char)
  | [] => none
  | c :: t =>
    if c = '#' then
      firstSome (wsPlusSplitsDesc t) (fun u =>
        match u with
        | [] => none
        | _ :: v => docDescGo v)
    else none

/-- `re.search` of the document description pattern over the content. -/
def docDescSearch (content : List Char) : Option (List Char) :=
  scanLeft docDescMatchAt content

end Reflex

namespace Reflex

/-- Python truthiness of an optional string: `None` and the empty string are
    falsy. -/
def truthy : Option (List Char) → Bool
  | none => false
  | some s => !s.isEmpty

/-- A file path, as the list of its `Path.parts` segments. -/
abbrev FilePath' := List (List Char)

/-- Last path segment (Python `Path(p).name` for the slash-joined relative
    paths the pipeline builds); empty for the degenerate empty path. -/
def lastSeg : FilePath' → List Char
  | [] => []
  | [x] => x
  | _ :: xs => lastSeg xs

/-- Python `Path(p).stem` on a file name: strip the last extension, where an
    extension requires a dot at index ≥ 1 (a leading-dot file with no other
    dot has no extension). -/
def pyStem (fname : List Char) : List Char :=
  if (fname.drop 1).contains '.' then
    fname.take (fname.length - 1 - fname.reverse.findIdx (fun c => c = '.'))
  else fname

/-- The frontmatter-derived draft name: group(1) of the components pattern
    searched inside group(1) of the frontmatter pattern, stripped
    (populate_db.py lines 15-21). -/
def fmComponentsName (content : List Char) : Option (List Char) :=
  match frontmatterSearch content with
  | some fm => (componentsSearch fm).map pyStrip
  | none => none

/-- The value of the Python variable `name` after the frontmatter step
    (lines 11-21) and the heading step (lines 23-27) of
    `extract_component_info`: the frontmatter components name if truthy,
    else the stripped heading group if a heading matched, else whatever the
    frontmatter step left (`None` or a name stripping to the empty
    string). -/
def draftName (content : List Char) : Option (List Char) :=
  if truthy (fmComponentsName content) then fmComponentsName content
  else
    match headingSearch content with
    | some h => some (pyStrip h)
    | none => fmComponentsName content

/-- The filename fallback of line 39: title-cased, underscore-replaced
    stem. -/
def fallbackName (file_path : FilePath') : List Char :=
  pyTitle (pyReplace '_' ' ' (pyStem (lastSeg file_path)))

/-- `extract_component_info(content, file_path)` (populate_db.py lines 9-41):
    name from frontmatter components list, else first multiline heading
    match, else the filename fallback; a name that strips to the empty
    string is falsy and falls through.  The description (lines 29-35) is
    attempted exactly when the name is truthy before the filename fallback
    runs, and `description or ""` defaults it to the empty string. -/
def extract_component_info (content : List Char) (file_path : FilePath') :
    List Char × List Char :=
  ((if truthy (draftName content) then draftName content
    else some (fallbackName file_path)).getD [],
   (if truthy (draftName content) then
      (descSearch content ((draftName content).getD [])).map pyStrip
    else none).getD [])

/-- The path segment literal `"library"`. -/
def librarySeg : List Char := ['l', 'i', 'b', 'r', 'a', 'r', 'y']

/-- The path segment literal `"reflex_docs"`. -/
def reflexDocsSeg : List Char :=
  ['r', 'e', 'f', 'l', 'e', 'x', '_', 'd', 'o', 'c', 's']

/-- The sentinel `"Other"`. -/
def otherStr : List Char := ['O', 't', 'h', 'e', 'r']

/-- Index of the first segment equal to `seg` (Python `list.index` guarded by
    `in`). -/
def segIdx (seg : List Char) : FilePath' → Option Nat
  | [] => none
  | x :: xs => if x = seg then some 0 else (segIdx seg xs).map (· + 1)

/-- The normalisation `.replace("_", " ").replace("-", " ").title()` applied
    to a path segment. -/
def normSeg (s : List Char) : List Char :=
  pyTitle (pyReplace '-' ' ' (pyReplace '_' ' ' s))

/-- `get_category_from_path` (populate_db.py lines 44-53). -/
def get_category_from_path (file_path : FilePath') : List Char :=
  match segIdx librarySeg file_path with
  | some i =>
    match file_path.drop (i + 1) with
    | next :: _ => normSeg next
    | [] => otherStr
  | none => otherStr

/-- `get_section_from_path` (populate_db.py lines 56-63). -/
def get_section_from_path (file_path : FilePath') : List Char :=
  match segIdx reflexDocsSeg file_path with
  | some i =>
    match file_path.drop (i + 1) with
    | next :: _ => normSeg next
    | [] => otherStr
  | none => otherStr

/-- The DocSection draft name (populate_db.py lines 132-141): first multiline
    heading match stripped — with no truthiness re-check — else the stem with
    underscores AND hyphens turned into spaces, title-cased. -/
def docNameOf (content : List Char) (file_path : FilePath') : List Char :=
  match headingSearch content with
  | some h => pyStrip h
  | none => pyTitle (pyReplace '-' ' ' (pyReplace '_' ' ' (pyStem (lastSeg file_path))))

/-- The DocSection description (populate_db.py lines 151-155). -/
def docDescOf (content : List Char) : List Char :=
  match docDescSearch content with
  | some d => pyStrip d
  | none => []

/-- A file-system tree: the entries of a directory in their discovery
    (`os.scandir`) order. -/
inductive FS where
  | mdfile (fname : List Char) (content : List Char)
  | dir (dname : List Char) (entries : List FS)

/-- The name of an entry. -/
def FS.nameOf : FS → List Char
  | .mdfile n _ => n
  | .dir n _ => n

/-- The plain files of a directory listing, in order (the `files` component
    of an `os.walk` tuple, before any extension filtering). -/
def filesOf : List FS → List (List Char × List Char)
  | [] => []
  | FS.mdfile n c :: es => (n, c) :: filesOf es
  | FS.dir _ _ :: es => filesOf es

mutual

/-- `os.walk` rooted at a single entry whose parent path is `path`: for each
    directory, top-down and in listing order, the pair of its path segments
    and its file listing.  Walking a plain file yields nothing. -/
def osWalk (path : FilePath') : FS → List (FilePath' × List (List Char × List Char))
  | .mdfile _ _ => []
  | .dir n entries => (path ++ [n], filesOf entries) :: osWalkList (path ++ [n]) entries

/-- `os.walk` over the entries of one directory, in listing order. -/
def osWalkList (path : FilePath') : List FS → List (FilePath' × List (List Char × List Char))
  | [] => []
  | e :: es => osWalk path e ++ osWalkList path es

end

/-- The `.md` extension. -/
def mdExt : List Char := ['.', 'm', 'd']

/-- Python `file.endswith(".md")`. -/
def isMd (n : List Char) : Bool := mdExt.isSuffixOf n

/-- From one `os.walk` tuple, the markdown files of that directory as
    (full path, content) pairs, in listing order — the inner loop of the
    walks in populate_db.py. -/
def mdFilesOfRoot (r : FilePath' × List (List Char × List Char)) :
    List (FilePath' × List Char) :=
  (r.2.filter (fun f => isMd f.1)).map (fun f => (r.1 ++ [f.1], f.2))

/-- First directory entry with the given name (`os.path.exists` plus the
    subsequent walk use the entry itself). -/
def findEntry (n : List Char) : List FS → Option FS
  | [] => none
  | e :: es => if e.nameOf = n then some e else findEntry n es

/-- The component walk (populate_db.py lines 82-87): walk
    `reflex_docs/library` if that entry exists, collecting markdown files in
    walk order.  `entries` are the entries of the `reflex_docs` root. -/
def componentFiles (entries : List FS) : List (FilePath' × List Char) :=
  match findEntry librarySeg entries with
  | some t => ((osWalk [reflexDocsSeg] t).map mdFilesOfRoot).flatten
  | none => []

/-- Slash-join of path segments (the `root` string `os.walk` reports). -/
def joinSegs : FilePath' → List Char
  | [] => []
  | [s] => s
  | s :: rest => s ++ '/' :: joinSegs rest

/-- The documentation walk (populate_db.py lines 119-126): walk the whole
    `reflex_docs` tree and skip every directory whose path string contains
    `"library"` as a substring (`if "library" in root: continue`). -/
def docFiles (entries : List FS) : List (FilePath' × List Char) :=
  ((osWalk [] (FS.dir reflexDocsSeg entries)).map (fun r =>
    if containsSub librarySeg (joinSegs r.1) then [] else mdFilesOfRoot r)).flatten

/-- A row of the `component` table (models.py lines 9-16; `id` and
    `created_at` are storage bookkeeping and not modelled). -/
structure ComponentR where
  name : List Char
  category : List Char
  file_path : FilePath'
  content : List Char
  description : List Char
deriving DecidableEq

/-- A row of the `docsection` table (models.py lines 19-26; the `section`
    column is called `sectionName` because `section` is a Lean keyword). -/
structure DocSectionR where
  name : List Char
  sectionName : List Char
  file_path : FilePath'
  content : List Char
  description : List Char
deriving DecidableEq

/-- The component insertion loop (populate_db.py lines 84-116): per file,
    extract name/description, derive the category, suffix the name with
    `_category` exactly once when it equals the name of a record already
    inserted in this build, and append the record.  `acc` is the catalog
    built so far (the deletions of lines 75-79 were already committed, so
    the existence query sees only this build's records). -/
def processComponents : List (FilePath' × List Char) → List ComponentR → List ComponentR
  | [], acc => acc
  | (fp, content) :: rest, acc =>
    let nd := extract_component_info content fp
    let category := get_category_from_path fp
    let name :=
      if acc.any (fun r => r.name = nd.1) then nd.1 ++ '_' :: category else nd.1
    processComponents rest (acc ++ [⟨name, category, fp, content, nd.2⟩])

/-- The documentation insertion loop (populate_db.py lines 124-166), with the
    section in place of the category. -/
def processDocs : List (FilePath' × List Char) → List DocSectionR → List DocSectionR
  | [], acc => acc
  | (fp, content) :: rest, acc =>
    let name0 := docNameOf content fp
    let sec := get_section_from_path fp
    let name :=
      if acc.any (fun r => r.name = name0) then name0 ++ '_' :: sec else name0
    processDocs rest (acc ++ [⟨name, sec, fp, content, docDescOf content⟩])

/-- The Component catalog a build drafts from the given `reflex_docs`
    entries. -/
def builtComponents (entries : List FS) : List ComponentR :=
  processComponents (componentFiles entries) []

/-- The DocSection catalog a build drafts from the given `reflex_docs`
    entries. -/
def builtDocSections (entries : List FS) : List DocSectionR :=
  processDocs (docFiles entries) []

/-- The two catalogs of the database. -/
structure DB where
  components : List ComponentR
  docSections : List DocSectionR
deriving DecidableEq

/-- The database with both catalogs empty. -/
def emptyDB : DB := ⟨[], []⟩

/-- A completed build: the final `session.commit()` (populate_db.py
    line 171) succeeds exactly when the `unique=True` constraints on `name`
    (models.py lines 11 and 21) hold for all drafted rows of each catalog;
    otherwise the commit raises and the build does not complete. -/
def populateCompleted (entries : List FS) : Option DB :=
  if ((builtComponents entries).map (fun r => r.name)).Nodup ∧
     ((builtDocSections entries).map (fun r => r.name)).Nodup
  then some ⟨builtComponents entries, builtDocSections entries⟩
  else none

/-- The two externally visible states of `populate_database` run against a
    prior database `db`: first, the state committed by the clearing commit
    (populate_db.py line 79), which deletes every record of both catalogs;
    second, the state after the final commit — the fresh catalogs when it
    succeeds, and still the cleared state when it raises (the inserts roll
    back but the clearing was already committed separately). -/
def populateStates (_db : DB) (entries : List FS) : DB × DB :=
  (emptyDB,
   match populateCompleted entries with
   | some built => built
   | none => emptyDB)

/-- Example tree: two component files whose drafted names collide
    (`library/forms/button.md` and `library/inputs/button.md`), in that
    discovery order. -/
def exButtonEntries : List FS :=
  [FS.dir librarySeg
    [FS.dir "forms".toList [FS.mdfile "button.md".toList "# Button\nA form button.\n".toList],
     FS.dir "inputs".toList [FS.mdfile "button.md".toList "# Button\nAn input button.\n".toList]]]

/-- Example tree: three component files drafting the same name, the last two
    also sharing a category, so the once-only rename collides again. -/
def exTripleEntries : List FS :=
  [FS.dir librarySeg
    [FS.dir "forms".toList [FS.mdfile "button.md".toList "# Button\n".toList],
     FS.dir "inputs".toList
       [FS.mdfile "button.md".toList "# Button\n".toList,
        FS.mdfile "button2.md".toList "# Button\n".toList]]]

/-- Example tree: a single documentation page whose content carries a
    frontmatter `components:` list as well as a level-1 heading. -/
def exFmDocEntries : List FS :=
  [FS.mdfile "intro.md".toList "---\ncomponents:\n- Button\n---\n# Heading\n".toList]

/-- Example tree: a markdown file under a directory called `mylibrary`,
    which is not the component sub-tree. -/
def exMyLibEntries : List FS :=
  [FS.dir "mylibrary".toList [FS.mdfile "a.md".toList "# A\nText.\n".toList]]

/-- Example tree: one component file and one documentation file, without any
    name collisions. -/
def exPlainEntries : List FS :=
  [FS.dir librarySeg [FS.mdfile "b.md".toList "# B\n".toList],
   FS.mdfile "c.md".toList "# C\n".toList]

/-- A prior database holding one component record, used to exhibit the loss
    of prior catalog contents. -/
def dbPrior : DB :=
  ⟨[⟨"X".toList, "Other".toList, [], [], []⟩], []⟩

/-- No line of the given text starts with `#`; the Boolean argument records
    whether the current position is at a line start.  Text satisfying this
    contains no position at which the anchored heading pattern could
    match. -/
def noHashBol : Bool → List Char → Bool
  | _, [] => true
  | bol, c :: cs => (!(bol && (c = '#'))) && noHashBol (c = '\n') cs

/-- Whether the position following the given text is a line start, given
    whether the position before it is one. -/
def endBol : Bool → List Char → Bool
  | bol, [] => bol
  | _, [c] => c = '\n'
  | bol, _ :: c :: cs => endBol bol (c :: cs)

/-- The fallback naming rule exactly as the claim states it for both
    catalogs: file stem, underscores to spaces, words capitalized (no hyphen
    replacement). -/
def specUnderscoreFallback (file_path : FilePath') : List Char :=
  pyTitle (pyReplace '_' ' ' (pyStem (lastSeg file_path)))

end Reflex


namespace Reflex

theorem firstSome_cons_some {α β : Type} {f : α → Option β} {a : α} {xs : List α} {b : β}
    (h : f a = some b) : firstSome (a :: xs) f = some b := by
  simp [firstSome, h]

theorem length_pyTitleGo (b : Bool) (l : List Char) : (pyTitleGo b l).length = l.length := by
  induction l generalizing b with
  | nil => rfl
  | cons c cs ih => by_cases h : c.isAlpha <;> simp [pyTitleGo, h, ih]

theorem length_pyTitle (l : List Char) : (pyTitle l).length = l.length :=
  length_pyTitleGo false l

theorem length_pyReplace (a b : Char) (l : List Char) :
    (pyReplace a b l).length = l.length := by
  simp [pyReplace]

theorem dropWhile_all_append {p : Char → Bool} {A : List Char} (v : List Char)
    (h : ∀ c ∈ A, p c = true) : (A ++ v).dropWhile p = v.dropWhile p := by
  induction A with
  | nil => rfl
  | cons c cs ih =>
    simp only [List.cons_append, List.dropWhile_cons, h c (by simp)]
    exact ih (fun x hx => h x (by simp [hx]))

theorem takeWhile_all_append_stop {p : Char → Bool} {A : List Char} {b : Char} (B : List Char)
    (hA : ∀ c ∈ A, p c = true) (hb : p b = false) :
    (A ++ b :: B).takeWhile p = A := by
  induction A with
  | nil => simp [List.takeWhile_cons, hb]
  | cons c cs ih =>
    simp only [List.cons_append, List.takeWhile_cons, hA c (by simp), if_true]
    simpa using ih (fun x hx => hA x (by simp [hx]))

theorem head_dropWhile_false {p : Char → Bool} {l : List Char} {c : Char} {cs : List Char}
    (h : l.dropWhile p = c :: cs) : p c = false := by
  have hw : l.dropWhile p ≠ [] := by simp [h]
  have := List.head_dropWhile_not p l hw
  simpa [h] using this

theorem dropWhile_idem (p : Char → Bool) (l : List Char) :
    (l.dropWhile p).dropWhile p = l.dropWhile p := by
  cases h : l.dropWhile p with
  | nil => rfl
  | cons c cs => simp [List.dropWhile_cons, head_dropWhile_false h]

theorem pyStrip_dropWhile (l : List Char) :
    pyStrip (l.dropWhile pySpace) = pyStrip l := by
  simp [pyStrip, dropWhile_idem]

theorem dropWhile_ne_nil_of_pyStrip {l : List Char} (h : pyStrip l ≠ []) :
    l.dropWhile pySpace ≠ [] := by
  intro h0
  exact h (by simp [pyStrip, h0])

theorem mem_of_mem_dropWhile {p : Char → Bool} {l : List Char} {c : Char}
    (h : c ∈ l.dropWhile p) : c ∈ l :=
  (List.dropWhile_sublist p).mem h

theorem isPrefixOf_true_iff (p s : List Char) : p.isPrefixOf s = true ↔ p <+: s := by
  induction p generalizing s with
  | nil => simp [List.isPrefixOf]
  | cons a p' ih =>
    cases s with
    | nil => simp [List.isPrefixOf]
    | cons b s' => simp [List.isPrefixOf, ih]

theorem prefix_of_append_left {p X B : List Char} (h : p <+: X ++ B)
    (hlen : p.length ≤ X.length) : p <+: X := by
  rw [List.prefix_iff_eq_take] at h ⊢
  rwa [List.take_append_of_le_length hlen] at h

theorem no_occurrence_in_left {p A B : List Char}
    (hA : ∀ j, j + p.length ≤ A.length → ¬ p <+: A.drop j)
    (hB : p <+: B)
    (hbf : ∀ d, d < p.length → 0 < d → p.drop d ≠ p.take (p.length - d)) :
    ∀ j, j < A.length → ¬ p <+: (A ++ B).drop j := by
  intro j hj hpre
  rw [List.drop_append_of_le_length (le_of_lt hj)] at hpre
  by_cases hcase : j + p.length ≤ A.length
  · exact hA j hcase (prefix_of_append_left hpre (by rw [List.length_drop]; omega))
  · have hd1 : 0 < A.length - j := by omega
    have hd2 : A.length - j < p.length := by omega
    have hlenAdrop : (A.drop j).length = A.length - j := by simp
    have hpeq : p = (A.drop j ++ B).take p.length := List.prefix_iff_eq_take.mp hpre
    have htake : p.take (A.length - j) = A.drop j := by
      have h1 := congrArg (List.take (A.length - j)) hpeq
      rw [List.take_take, Nat.min_eq_left (le_of_lt hd2),
          List.take_append_of_le_length (le_of_eq hlenAdrop.symm),
          List.take_of_length_le (le_of_eq hlenAdrop)] at h1
      exact h1
    have hdropB : p.drop (A.length - j) <+: B := by
      have : p.take (A.length - j) ++ p.drop (A.length - j) <+: A.drop j ++ B := by
        rw [List.take_append_drop]; exact hpre
      rw [htake] at this
      exact (List.prefix_append_right_inj (A.drop j)).mp this
    have hBtake1 : B.take (p.length - (A.length - j)) = p.take (p.length - (A.length - j)) := by
      have h1 := congrArg (List.take (p.length - (A.length - j))) (List.prefix_iff_eq_take.mp hB)
      rw [List.take_take, Nat.min_eq_left (by omega)] at h1
      exact h1.symm
    have hBtake2 : B.take (p.length - (A.length - j)) = p.drop (A.length - j) := by
      have h1 := List.prefix_iff_eq_take.mp hdropB
      rw [List.length_drop] at h1
      exact h1.symm
    exact hbf (A.length - j) hd2 hd1 (by rw [← hBtake2, hBtake1])

theorem findSubIdx_append_first {p A B : List Char}
    (hA : ∀ j, j + p.length ≤ A.length → ¬ p <+: A.drop j)
    (hB : p <+: B) (hp : p ≠ [])
    (hbf : ∀ d, d < p.length → 0 < d → p.drop d ≠ p.take (p.length - d)) :
    findSubIdx p (A ++ B) = some A.length := by
  induction A with
  | nil =>
    cases B with
    | nil => exact absurd (List.prefix_nil.mp hB) hp
    | cons b bs =>
      simp only [List.nil_append, findSubIdx, List.length_nil]
      rw [if_pos ((isPrefixOf_true_iff p (b :: bs)).mpr hB)]
  | cons a A' ih =>
    have hnot : ¬ p <+: ((a :: A') ++ B) := by
      have := no_occurrence_in_left hA hB hbf 0 (by simp)
      simpa using this
    have hA' : ∀ j, j + p.length ≤ A'.length → ¬ p <+: A'.drop j := by
      intro j hj
      have := hA (j + 1) (by simp; omega)
      simpa using this
    simp only [List.cons_append, findSubIdx, List.append_eq]
    rw [if_neg (by rw [isPrefixOf_true_iff]; simpa using hnot)]
    rw [ih hA']
    simp

theorem containsSub_true_of_drop {p s : List Char} {j : Nat} (h : p <+: s.drop j) :
    containsSub p s = true := by
  induction s generalizing j with
  | nil =>
    have hp : p = [] := List.prefix_nil.mp (by simpa using h)
    subst hp
    simp [containsSub, findSubIdx, List.isPrefixOf]
  | cons c cs ih =>
    cases j with
    | zero =>
      simp only [List.drop_zero] at h
      simp [containsSub, findSubIdx, (isPrefixOf_true_iff p (c :: cs)).mpr h]
    | succ j' =>
      simp only [List.drop_succ_cons] at h
      have := ih h
      simp only [containsSub, findSubIdx] at this ⊢
      split
      · simp
      · simpa using this

theorem not_drop_of_containsSub_false {p s : List Char} (h : containsSub p s = false) :
    ∀ j, ¬ p <+: s.drop j := by
  intro j hp
  rw [containsSub_true_of_drop hp] at h
  cases h

theorem scanLeft_skip {β : Type} (f : List Char → Option β) (A B : List Char)
    (h : ∀ j, j < A.length → f ((A ++ B).drop j) = none) :
    scanLeft f (A ++ B) = scanLeft f B := by
  induction A with
  | nil => rfl
  | cons a A' ih =>
    have h0 : f ((a :: A') ++ B) = none := by simpa using h 0 (by simp)
    have ih' := ih (fun j hj => by
      have := h (j + 1) (by simp; omega)
      simpa using this)
    simp only [List.cons_append, List.append_eq, scanLeft, h0] at *
    exact ih'

theorem scanLeft_cons_some {β : Type} {f : List Char → Option β} {c : Char} {cs : List Char}
    {b : β} (h : f (c :: cs) = some b) : scanLeft f (c :: cs) = some b := by
  simp [scanLeft, h]

end Reflex

namespace Reflex

theorem wsSplitsDesc_all_append (A v : List Char)
    (h : ∀ c ∈ A, pySpace c = true) :
    ∃ junk, wsSplitsDesc (A ++ v) = wsSplitsDesc v ++ junk := by
  induction A with
  | nil => exact ⟨[], by simp⟩
  | cons c cs ih =>
    obtain ⟨j, hj⟩ := ih (fun x hx => h x (by simp [hx]))
    refine ⟨j ++ [c :: (cs ++ v)], ?_⟩
    show (if pySpace c then wsSplitsDesc (cs ++ v) ++ [c :: (cs ++ v)]
          else [c :: (cs ++ v)]) = wsSplitsDesc v ++ (j ++ [c :: (cs ++ v)])
    rw [if_pos (h c (by simp)), hj, List.append_assoc]

theorem wsSplitsDesc_nonspace {c : Char} (cs : List Char) (h : pySpace c = false) :
    wsSplitsDesc (c :: cs) = [c :: cs] := by
  show (if pySpace c then wsSplitsDesc cs ++ [c :: cs] else [c :: cs]) = [c :: cs]
  rw [h]
  rfl

theorem wsNlSplitsAsc_newline (cs : List Char) :
    wsNlSplitsAsc ('\n' :: cs) = cs :: wsNlSplitsAsc cs := by
  show (if pySpace '\n' then (if '\n' = '\n' then [cs] else []) ++ wsNlSplitsAsc cs
        else []) = cs :: wsNlSplitsAsc cs
  rw [if_pos (by decide), if_pos rfl]
  rfl

theorem wsNlSplitsAsc_nonspace {c : Char} (cs : List Char) (h : pySpace c = false) :
    wsNlSplitsAsc (c :: cs) = [] := by
  show (if pySpace c then (if c = '\n' then [cs] else []) ++ wsNlSplitsAsc cs
        else []) = []
  rw [h]
  rfl

theorem wsNlSplitsAsc_ws_cons {c : Char} (cs : List Char)
    (h1 : pySpace c = true) (h2 : c ≠ '\n') :
    wsNlSplitsAsc (c :: cs) = wsNlSplitsAsc cs := by
  show (if pySpace c then (if c = '\n' then [cs] else []) ++ wsNlSplitsAsc cs
        else []) = wsNlSplitsAsc cs
  rw [h1, if_neg h2]
  rfl

theorem wsNlSplitsAsc_all_append (A v : List Char)
    (h : ∀ c ∈ A, pySpace c = true ∧ c ≠ '\n') :
    wsNlSplitsAsc (A ++ v) = wsNlSplitsAsc v := by
  induction A with
  | nil => rfl
  | cons c cs ih =>
    have hc := h c (by simp)
    rw [List.cons_append, wsNlSplitsAsc_ws_cons (cs ++ v) hc.1 hc.2]
    exact ih (fun x hx => h x (by simp [hx]))

theorem wsNlSplitsDesc_nl_nonspace {c : Char} (cs : List Char) (h : pySpace c = false) :
    wsNlSplitsDesc ('\n' :: c :: cs) = [c :: cs] := by
  unfold wsNlSplitsDesc
  rw [wsNlSplitsAsc_newline, wsNlSplitsAsc_nonspace cs h]
  rfl

theorem wsNlSplitsDesc_nl_spaces {ind : List Char} {d : Char} (R : List Char)
    (hind : ∀ c ∈ ind, pySpace c = true ∧ c ≠ '\n') (hd : pySpace d = false) :
    wsNlSplitsDesc ('\n' :: (ind ++ d :: R)) = [ind ++ d :: R] := by
  unfold wsNlSplitsDesc
  rw [wsNlSplitsAsc_newline, wsNlSplitsAsc_all_append ind (d :: R) hind,
      wsNlSplitsAsc_nonspace R hd]
  rfl

/-- Evaluation of `hyphenTail` on a list item: leading (non-newline)
    whitespace of the item is consumed by the greedy `\s*`, the group is the
    rest of the line, provided the item is not pure whitespace. -/
theorem hyphenTail_item {item : List Char} (post : List Char)
    (h1 : '\n' ∉ item) (h2 : pyStrip item ≠ []) :
    hyphenTail (item ++ '\n' :: post) = some (item.dropWhile pySpace) := by
  obtain ⟨d0, td, hdrop⟩ : ∃ d0 td, item.dropWhile pySpace = d0 :: td := by
    cases hcase : item.dropWhile pySpace with
    | nil => exact absurd hcase (dropWhile_ne_nil_of_pyStrip h2)
    | cons d0 td => exact ⟨d0, td, rfl⟩
  have hd0 : pySpace d0 = false := head_dropWhile_false hdrop
  have hitem : item ++ '\n' :: post
      = item.takeWhile pySpace ++ (d0 :: (td ++ '\n' :: post)) := by
    conv_lhs => rw [← List.takeWhile_append_dropWhile (p := pySpace) (l := item), hdrop]
    simp
  obtain ⟨junk, hjunk⟩ := wsSplitsDesc_all_append (item.takeWhile pySpace)
    (d0 :: (td ++ '\n' :: post)) (fun c hc => List.mem_takeWhile_imp hc)
  have hgroup : (d0 :: (td ++ '\n' :: post)).takeWhile notNl = d0 :: td := by
    have hall : ∀ c ∈ d0 :: td, notNl c = true := by
      intro c hc
      have hmem : c ∈ item := by
        rw [← hdrop] at hc
        exact mem_of_mem_dropWhile hc
      simp [notNl]
      intro hq
      exact h1 (hq ▸ hmem)
    have := takeWhile_all_append_stop (p := notNl) (b := '\n') post hall (by simp [notNl])
    simpa using this
  rw [hyphenTail, hitem, hjunk, wsSplitsDesc_nonspace _ hd0]
  rw [List.cons_append]
  rw [firstSome_cons_some (b := d0 :: td) (by simp [hgroup])]
  rw [hdrop]

end Reflex

namespace Reflex

theorem scanLeft_head_some {β : Type} {f : List Char → Option β} {s : List Char} {b : β}
    (h : f s = some b) : scanLeft f s = some b := by
  cases s with
  | nil => simpa [scanLeft] using h
  | cons c cs => simp [scanLeft, h]

theorem componentsMatchAt_structured (ind item post : List Char)
    (hind : ∀ c ∈ ind, pySpace c = true ∧ c ≠ '\n')
    (hitem1 : '\n' ∉ item) (hitem2 : pyStrip item ≠ []) :
    componentsMatchAt (componentsKey ++ '\n' :: (ind ++ '-' :: (item ++ '\n' :: post)))
      = some (item.dropWhile pySpace) := by
  have hdrop2 : (ind ++ '-' :: (item ++ '\n' :: post)).dropWhile pySpace
      = '-' :: (item ++ '\n' :: post) := by
    rw [dropWhile_all_append ('-' :: (item ++ '\n' :: post)) (fun c hc => (hind c hc).1)]
    exact List.dropWhile_cons_of_neg (by decide)
  unfold componentsMatchAt
  rw [if_pos ((isPrefixOf_true_iff _ _).mpr (List.prefix_append _ _))]
  rw [List.drop_left]
  rw [wsNlSplitsDesc_nl_spaces _ hind (by decide)]
  refine firstSome_cons_some ?_
  show (match (ind ++ '-' :: (item ++ '\n' :: post)).dropWhile pySpace with
        | '-' :: v => hyphenTail v
        | _ => none) = some (item.dropWhile pySpace)
  rw [hdrop2]
  show hyphenTail (item ++ '\n' :: post) = some (item.dropWhile pySpace)
  exact hyphenTail_item post hitem1 hitem2

theorem componentsKey_borderFree :
    ∀ d, d < componentsKey.length → 0 < d →
      componentsKey.drop d ≠ componentsKey.take (componentsKey.length - d) := by
  decide

theorem fmClose_borderFree :
    ∀ d, d < fmClose.length → 0 < d →
      fmClose.drop d ≠ fmClose.take (fmClose.length - d) := by
  decide

theorem componentsMatchAt_none {s : List Char} (h : ¬ componentsKey <+: s) :
    componentsMatchAt s = none := by
  unfold componentsMatchAt
  rw [if_neg (by rw [isPrefixOf_true_iff]; exact h)]

theorem componentsSearch_structured (pre ind item post : List Char)
    (hpre : containsSub componentsKey pre = false)
    (hind : ∀ c ∈ ind, pySpace c = true ∧ c ≠ '\n')
    (hitem1 : '\n' ∉ item) (hitem2 : pyStrip item ≠ []) :
    componentsSearch
        (pre ++ (componentsKey ++ '\n' :: (ind ++ '-' :: (item ++ '\n' :: post))))
      = some (item.dropWhile pySpace) := by
  unfold componentsSearch
  rw [scanLeft_skip componentsMatchAt pre _ (fun j hj =>
    componentsMatchAt_none
      (no_occurrence_in_left (fun i _ => not_drop_of_containsSub_false hpre i)
        (List.prefix_append _ _) componentsKey_borderFree j hj))]
  exact scanLeft_head_some (componentsMatchAt_structured ind item post hind hitem1 hitem2)

theorem frontmatterSearch_structured (f0 : Char) (fm' rest : List Char)
    (hf0 : pySpace f0 = false)
    (hclose : containsSub fmClose (f0 :: fm') = false) :
    frontmatterSearch ('-' :: '-' :: '-' :: '\n' :: ((f0 :: fm') ++ (fmClose ++ rest)))
      = some (f0 :: fm') := by
  apply scanLeft_head_some
  show firstSome (wsNlSplitsDesc ('\n' :: ((f0 :: fm') ++ (fmClose ++ rest))))
      (fun u => (findSubIdx fmClose u).map (fun b => u.take b)) = some (f0 :: fm')
  rw [List.cons_append, wsNlSplitsDesc_nl_nonspace _ hf0]
  refine firstSome_cons_some ?_
  show (findSubIdx fmClose ((f0 :: fm') ++ (fmClose ++ rest))).map
      (fun b => (f0 :: (fm' ++ (fmClose ++ rest))).take b) = some (f0 :: fm')
  rw [findSubIdx_append_first (fun i _ => not_drop_of_containsSub_false hclose i)
      (List.prefix_append _ _) (by decide) fmClose_borderFree]
  show some ((f0 :: (fm' ++ (fmClose ++ rest))).take (f0 :: fm').length) = some (f0 :: fm')
  rw [show (f0 :: (fm' ++ (fmClose ++ rest))) = (f0 :: fm') ++ (fmClose ++ rest) by simp]
  rw [List.take_left]

end Reflex

namespace Reflex

theorem truthy_some_of_ne {nm : List Char} (hne : nm ≠ []) : truthy (some nm) = true := by
  cases nm with
  | nil => exact absurd rfl hne
  | cons c cs => rfl

theorem fmComponentsName_structured (pre ind item post rest : List Char)
    (hhead : pre = [] ∨ ∃ c pre2, pre = c :: pre2 ∧ pySpace c = false)
    (hpre : containsSub componentsKey pre = false)
    (hind : ∀ c ∈ ind, pySpace c = true ∧ c ≠ '\n')
    (hitem1 : '\n' ∉ item) (hitem2 : pyStrip item ≠ [])
    (hclose : containsSub fmClose
        (pre ++ (componentsKey ++ '\n' :: (ind ++ '-' :: (item ++ '\n' :: post)))) = false) :
    fmComponentsName ('-' :: '-' :: '-' :: '\n' ::
        ((pre ++ (componentsKey ++ '\n' :: (ind ++ '-' :: (item ++ '\n' :: post))))
          ++ (fmClose ++ rest)))
      = some (pyStrip item) := by
  have hsearch : frontmatterSearch ('-' :: '-' :: '-' :: '\n' ::
      ((pre ++ (componentsKey ++ '\n' :: (ind ++ '-' :: (item ++ '\n' :: post))))
        ++ (fmClose ++ rest)))
      = some (pre ++ (componentsKey ++ '\n' :: (ind ++ '-' :: (item ++ '\n' :: post)))) := by
    rcases hhead with h | ⟨c, pre2, hp2, hc⟩
    · subst h
      simp only [List.nil_append] at hclose ⊢
      exact frontmatterSearch_structured 'c' _ rest (by decide) hclose
    · subst hp2
      simp only [List.cons_append] at hclose ⊢
      exact frontmatterSearch_structured c _ rest hc hclose
  have h2 : componentsSearch
      (pre ++ (componentsKey ++ '\n' :: (ind ++ '-' :: (item ++ '\n' :: post))))
      = some (item.dropWhile pySpace) :=
    componentsSearch_structured pre ind item post hpre hind hitem1 hitem2
  simp only [List.append_assoc, List.cons_append] at hsearch
  simp [fmComponentsName, hsearch, h2, pyStrip_dropWhile]

theorem extract_name_of_fm (content : List Char) (fpath : FilePath') (nm : List Char)
    (h : fmComponentsName content = some nm) (hne : nm ≠ []) :
    (extract_component_info content fpath).1 = nm := by
  have hd : draftName content = some nm := by
    simp [draftName, h, truthy_some_of_ne hne]
  simp [extract_component_info, hd, truthy_some_of_ne hne]

end Reflex

namespace Reflex

theorem headingMatchAt_cons_ne {c : Char} (t : List Char) (h : c ≠ '#') :
    headingMatchAt (c :: t) = none := by
  show (if c = '#' then
      firstSome (wsPlusSplitsDesc t) (fun u =>
        match u with
        | [] => none
        | d :: _ => if d = '\n' then none else some (u.takeWhile notNl))
    else none) = none
  rw [if_neg h]

theorem bolScan_head_some {f : List Char → Option (List Char)} {s : List Char}
    {b : List Char} (h : f s = some b) : bolScan f true s = some b := by
  cases s with
  | nil => simpa [bolScan] using h
  | cons c cs => simp [bolScan, h]

theorem endBol_irrel (b1 b2 : Bool) : ∀ (l : List Char), l ≠ [] → endBol b1 l = endBol b2 l
  | [], h => absurd rfl h
  | [_], _ => rfl
  | _ :: d :: cs, _ => endBol_irrel b1 b2 (d :: cs) (by simp)

theorem bolScan_skip (pre X : List Char) : ∀ (bol : Bool),
    noHashBol bol pre = true → endBol bol pre = true →
    bolScan headingMatchAt bol (pre ++ X) = bolScan headingMatchAt true X := by
  induction pre with
  | nil =>
    intro bol _ h2
    have : bol = true := by simpa [endBol] using h2
    rw [this]
    rfl
  | cons c pre' ih =>
    intro bol h1 h2
    have h1' : (bol && decide (c = '#')) = false ∧ noHashBol (decide (c = '\n')) pre' = true := by
      have := h1
      simp only [noHashBol, Bool.and_eq_true, Bool.not_eq_true'] at this
      exact this
    have hfe : (if bol then headingMatchAt (c :: (pre' ++ X)) else none) = none := by
      cases hb : bol with
      | false => rfl
      | true =>
        have hc : c ≠ '#' := by
          intro he
          rw [hb, he] at h1'
          simpa using h1'.1
        simpa using headingMatchAt_cons_ne (pre' ++ X) hc
    have hend' : endBol (decide (c = '\n')) pre' = true := by
      cases pre' with
      | nil => simpa [endBol] using h2
      | cons d cs =>
        rw [← endBol_irrel bol (decide (c = '\n')) (d :: cs) (by simp)]
        simpa [endBol] using h2
    show (match (if bol then headingMatchAt (c :: (pre' ++ X)) else none) with
          | some b => some b
          | none => bolScan headingMatchAt (c = '\n') (pre' ++ X))
        = bolScan headingMatchAt true X
    rw [hfe]
    exact ih (decide (c = '\n')) h1'.2 hend'

theorem takeWhile_notNl_group {text : List Char} {d0 : Char} {td : List Char} (rest : List Char)
    (hdrop : text.dropWhile pySpace = d0 :: td) (htext1 : '\n' ∉ text) :
    (d0 :: (td ++ '\n' :: rest)).takeWhile notNl = d0 :: td := by
  have hall : ∀ c ∈ d0 :: td, notNl c = true := by
    intro c hc
    have hmem : c ∈ text := by
      rw [← hdrop] at hc
      exact mem_of_mem_dropWhile hc
    simp [notNl]
    intro hq
    exact htext1 (hq ▸ hmem)
  have := takeWhile_all_append_stop (p := notNl) (b := '\n') rest hall (by simp [notNl])
  simpa using this

theorem headingSearch_structured (pre ws text rest : List Char)
    (hpre1 : noHashBol true pre = true) (hpre2 : endBol true pre = true)
    (hws : ∃ w0 ws2, ws = w0 :: ws2 ∧ ∀ c ∈ w0 :: ws2, pySpace c = true ∧ c ≠ '\n')
    (htext1 : '\n' ∉ text) (htext2 : pyStrip text ≠ []) :
    headingSearch (pre ++ '#' :: (ws ++ (text ++ '\n' :: rest)))
      = some (text.dropWhile pySpace) := by
  unfold headingSearch
  rw [bolScan_skip pre _ true hpre1 hpre2]
  obtain ⟨w0, ws2, hws0, hwsall⟩ := hws
  subst hws0
  obtain ⟨d0, td, hdrop⟩ : ∃ d0 td, text.dropWhile pySpace = d0 :: td := by
    cases hcase : text.dropWhile pySpace with
    | nil => exact absurd hcase (dropWhile_ne_nil_of_pyStrip htext2)
    | cons d0 td => exact ⟨d0, td, rfl⟩
  have hd0 : pySpace d0 = false := head_dropWhile_false hdrop
  have hd0ne : d0 ≠ '\n' := by
    intro he
    rw [he] at hd0
    exact absurd hd0 (by decide)
  have hf : headingMatchAt ('#' :: ((w0 :: ws2) ++ (text ++ '\n' :: rest)))
      = some (text.dropWhile pySpace) := by
    show firstSome (wsPlusSplitsDesc ((w0 :: ws2) ++ (text ++ '\n' :: rest)))
        (fun u =>
          match u with
          | [] => none
          | d :: _ => if d = '\n' then none else some (u.takeWhile notNl))
      = some (text.dropWhile pySpace)
    rw [List.cons_append]
    rw [show wsPlusSplitsDesc (w0 :: (ws2 ++ (text ++ '\n' :: rest)))
        = wsSplitsDesc (ws2 ++ (text ++ '\n' :: rest)) from by
      show (if pySpace w0 then wsSplitsDesc (ws2 ++ (text ++ '\n' :: rest)) else [])
          = wsSplitsDesc (ws2 ++ (text ++ '\n' :: rest))
      rw [(hwsall w0 (by simp)).1]
      rfl]
    have hsplit2 : ws2 ++ (text ++ '\n' :: rest)
        = (ws2 ++ text.takeWhile pySpace) ++ (d0 :: (td ++ '\n' :: rest)) := by
      conv_lhs => rw [← List.takeWhile_append_dropWhile (p := pySpace) (l := text), hdrop]
      simp
    rw [hsplit2]
    obtain ⟨junk, hjunk⟩ := wsSplitsDesc_all_append (ws2 ++ text.takeWhile pySpace)
      (d0 :: (td ++ '\n' :: rest)) (fun c hc => by
        rcases List.mem_append.mp hc with h | h
        · exact (hwsall c (by simp [h])).1
        · exact List.mem_takeWhile_imp h)
    rw [hjunk, wsSplitsDesc_nonspace _ hd0, List.cons_append]
    refine firstSome_cons_some ?_
    show (if d0 = '\n' then none
          else some ((d0 :: (td ++ '\n' :: rest)).takeWhile notNl))
        = some (text.dropWhile pySpace)
    rw [if_neg hd0ne, takeWhile_notNl_group rest hdrop htext1, hdrop]
  exact bolScan_head_some hf

end Reflex

namespace Reflex

theorem extract_name_of_heading (content : List Char) (fpath : FilePath') (nm : List Char)
    (h0 : truthy (fmComponentsName content) = false)
    (hh : headingSearch content = some nm) (hne : pyStrip nm ≠ []) :
    (extract_component_info content fpath).1 = pyStrip nm := by
  have hd : draftName content = some (pyStrip nm) := by
    simp [draftName, h0, hh]
  simp [extract_component_info, hd, truthy_some_of_ne hne]

theorem extract_name_fallback (content : List Char) (fpath : FilePath')
    (h0 : truthy (fmComponentsName content) = false)
    (hh : headingSearch content = none) :
    (extract_component_info content fpath).1
      = pyTitle (pyReplace '_' ' ' (pyStem (lastSeg fpath))) := by
  have hd : draftName content = fmComponentsName content := by
    simp [draftName, h0, hh]
  simp [extract_component_info, hd, h0, fallbackName]

theorem extract_desc_empty (content : List Char) (fpath : FilePath')
    (h0 : truthy (fmComponentsName content) = false)
    (hh : headingSearch content = none) :
    (extract_component_info content fpath).2 = [] := by
  have hd : draftName content = fmComponentsName content := by
    simp [draftName, h0, hh]
  simp [extract_component_info, hd, h0]

theorem docNameOf_heading (content : List Char) (fpath : FilePath') (nm : List Char)
    (hh : headingSearch content = some nm) :
    docNameOf content fpath = pyStrip nm := by
  unfold docNameOf
  rw [hh]

theorem docNameOf_fallback (content : List Char) (fpath : FilePath')
    (hh : headingSearch content = none) :
    docNameOf content fpath
      = pyTitle (pyReplace '-' ' ' (pyReplace '_' ' ' (pyStem (lastSeg fpath)))) := by
  unfold docNameOf
  rw [hh]

theorem segIdx_append_first (seg : List Char) (pre xs : FilePath')
    (h : seg ∉ pre) : segIdx seg (pre ++ seg :: xs) = some pre.length := by
  induction pre with
  | nil => simp [segIdx]
  | cons p ps ih =>
    have hp : p ≠ seg := fun he => h (by simp [he])
    simp only [List.cons_append, segIdx, if_neg hp, List.append_eq]
    rw [ih (fun hm => h (by simp [hm]))]
    rfl

theorem drop_after (pre : FilePath') (seg : List Char) (xs : FilePath') :
    (pre ++ seg :: xs).drop (pre.length + 1) = xs := by
  rw [show pre ++ seg :: xs = (pre ++ [seg]) ++ xs by simp]
  exact List.drop_left' (by simp)

theorem get_category_next (pre : FilePath') (next : List Char) (rest : FilePath')
    (h : librarySeg ∉ pre) :
    get_category_from_path (pre ++ librarySeg :: next :: rest) = normSeg next := by
  unfold get_category_from_path
  rw [segIdx_append_first librarySeg pre (next :: rest) h]
  show (match (pre ++ librarySeg :: next :: rest).drop (pre.length + 1) with
        | n :: _ => normSeg n
        | [] => otherStr) = normSeg next
  rw [drop_after pre librarySeg (next :: rest)]

theorem get_category_last (pre : FilePath') (h : librarySeg ∉ pre) :
    get_category_from_path (pre ++ [librarySeg]) = otherStr := by
  unfold get_category_from_path
  rw [segIdx_append_first librarySeg pre [] h]
  show (match (pre ++ [librarySeg]).drop (pre.length + 1) with
        | n :: _ => normSeg n
        | [] => otherStr) = otherStr
  rw [drop_after pre librarySeg []]

theorem get_section_next (pre : FilePath') (next : List Char) (rest : FilePath')
    (h : reflexDocsSeg ∉ pre) :
    get_section_from_path (pre ++ reflexDocsSeg :: next :: rest) = normSeg next := by
  unfold get_section_from_path
  rw [segIdx_append_first reflexDocsSeg pre (next :: rest) h]
  show (match (pre ++ reflexDocsSeg :: next :: rest).drop (pre.length + 1) with
        | n :: _ => normSeg n
        | [] => otherStr) = normSeg next
  rw [drop_after pre reflexDocsSeg (next :: rest)]

theorem get_section_last (pre : FilePath') (h : reflexDocsSeg ∉ pre) :
    get_section_from_path (pre ++ [reflexDocsSeg]) = otherStr := by
  unfold get_section_from_path
  rw [segIdx_append_first reflexDocsSeg pre [] h]
  show (match (pre ++ [reflexDocsSeg]).drop (pre.length + 1) with
        | n :: _ => normSeg n
        | [] => otherStr) = otherStr
  rw [drop_after pre reflexDocsSeg []]

end Reflex

namespace Reflex

theorem truthy_getD_ne_nil (o : Option (List Char)) (fb : List Char) (hfb : fb ≠ []) :
    (if truthy o = true then o else some fb).getD [] ≠ [] := by
  cases o with
  | none => simpa [truthy] using hfb
  | some s =>
    cases s with
    | nil => simpa [truthy] using hfb
    | cons c cs => simp [truthy]

theorem extract_name_ne_nil (content : List Char) (fpath : FilePath')
    (h : pyStem (lastSeg fpath) ≠ []) :
    (extract_component_info content fpath).1 ≠ [] := by
  have hfb : fallbackName fpath ≠ [] := by
    intro he
    apply h
    have hl := congrArg List.length he
    rw [fallbackName, length_pyTitle, length_pyReplace] at hl
    exact List.eq_nil_of_length_eq_zero hl
  exact truthy_getD_ne_nil (draftName content) (fallbackName fpath) hfb

theorem processComponents_length (files : List (FilePath' × List Char)) :
    ∀ acc : List ComponentR,
      (processComponents files acc).length = acc.length + files.length := by
  induction files with
  | nil => intro acc; simp [processComponents]
  | cons f rest ih =>
    intro acc
    obtain ⟨fp, content⟩ := f
    simp only [processComponents]
    rw [ih]
    simp
    omega

theorem processDocs_length (files : List (FilePath' × List Char)) :
    ∀ acc : List DocSectionR,
      (processDocs files acc).length = acc.length + files.length := by
  induction files with
  | nil => intro acc; simp [processDocs]
  | cons f rest ih =>
    intro acc
    obtain ⟨fp, content⟩ := f
    simp only [processDocs]
    rw [ih]
    simp
    omega

theorem processComponents_shape (files : List (FilePath' × List Char)) :
    ∀ (acc : List ComponentR), ∀ r ∈ processComponents files acc,
      r ∈ acc ∨ ∃ fc ∈ files,
        r.file_path = fc.1 ∧ r.content = fc.2 ∧
        r.category = get_category_from_path fc.1 ∧
        r.description = (extract_component_info fc.2 fc.1).2 ∧
        (r.name = (extract_component_info fc.2 fc.1).1 ∨
         r.name = (extract_component_info fc.2 fc.1).1 ++ '_' :: get_category_from_path fc.1) := by
  induction files with
  | nil => intro acc r hr; exact Or.inl hr
  | cons f rest ih =>
    intro acc r hr
    obtain ⟨fp, content⟩ := f
    simp only [processComponents] at hr
    rcases ih _ r hr with hacc | ⟨fc, hfc, hprops⟩
    · rcases List.mem_append.mp hacc with h1 | h2
      · exact Or.inl h1
      · right
        refine ⟨(fp, content), by simp, ?_⟩
        have hr2 := List.mem_singleton.mp h2
        subst hr2
        refine ⟨rfl, rfl, rfl, rfl, ?_⟩
        by_cases hcol : acc.any (fun q => q.name = (extract_component_info content fp).1)
        · right; simp [hcol]
        · left; simp [hcol]
    · exact Or.inr ⟨fc, by simp [hfc], hprops⟩

theorem processDocs_shape (files : List (FilePath' × List Char)) :
    ∀ (acc : List DocSectionR), ∀ r ∈ processDocs files acc,
      r ∈ acc ∨ ∃ fc ∈ files,
        r.file_path = fc.1 ∧ r.content = fc.2 ∧
        r.sectionName = get_section_from_path fc.1 ∧
        r.description = docDescOf fc.2 ∧
        (r.name = docNameOf fc.2 fc.1 ∨
         r.name = docNameOf fc.2 fc.1 ++ '_' :: get_section_from_path fc.1) := by
  induction files with
  | nil => intro acc r hr; exact Or.inl hr
  | cons f rest ih =>
    intro acc r hr
    obtain ⟨fp, content⟩ := f
    simp only [processDocs] at hr
    rcases ih _ r hr with hacc | ⟨fc, hfc, hprops⟩
    · rcases List.mem_append.mp hacc with h1 | h2
      · exact Or.inl h1
      · right
        refine ⟨(fp, content), by simp, ?_⟩
        have hr2 := List.mem_singleton.mp h2
        subst hr2
        refine ⟨rfl, rfl, rfl, rfl, ?_⟩
        by_cases hcol : acc.any (fun q => q.name = docNameOf content fp)
        · right; simp [hcol]
        · left; simp [hcol]
    · exact Or.inr ⟨fc, by simp [hfc], hprops⟩

theorem processComponents_paths (files : List (FilePath' × List Char)) :
    ∀ acc : List ComponentR,
      (processComponents files acc).map (fun r => r.file_path)
        = acc.map (fun r => r.file_path) ++ files.map (fun f => f.1) := by
  induction files with
  | nil => intro acc; simp [processComponents]
  | cons f rest ih =>
    intro acc
    obtain ⟨fp, content⟩ := f
    simp only [processComponents]
    rw [ih]
    simp

theorem processDocs_paths (files : List (FilePath' × List Char)) :
    ∀ acc : List DocSectionR,
      (processDocs files acc).map (fun r => r.file_path)
        = acc.map (fun r => r.file_path) ++ files.map (fun f => f.1) := by
  induction files with
  | nil => intro acc; simp [processDocs]
  | cons f rest ih =>
    intro acc
    obtain ⟨fp, content⟩ := f
    simp only [processDocs]
    rw [ih]
    simp

theorem processComponents_append (fs1 fs2 : List (FilePath' × List Char)) :
    ∀ acc : List ComponentR,
      processComponents (fs1 ++ fs2) acc = processComponents fs2 (processComponents fs1 acc) := by
  induction fs1 with
  | nil => intro acc; rfl
  | cons f rest ih =>
    intro acc
    obtain ⟨fp, content⟩ := f
    simp only [List.cons_append, processComponents]
    exact ih _

theorem processComponents_acc (fs : List (FilePath' × List Char)) :
    ∀ acc : List ComponentR, acc <+: processComponents fs acc := by
  induction fs with
  | nil => intro acc; exact ⟨[], by simp [processComponents]⟩
  | cons f rest ih =>
    intro acc
    obtain ⟨fp, content⟩ := f
    simp only [processComponents]
    exact (List.prefix_append acc _).trans (ih _)

theorem processDocs_append (fs1 fs2 : List (FilePath' × List Char)) :
    ∀ acc : List DocSectionR,
      processDocs (fs1 ++ fs2) acc = processDocs fs2 (processDocs fs1 acc) := by
  induction fs1 with
  | nil => intro acc; rfl
  | cons f rest ih =>
    intro acc
    obtain ⟨fp, content⟩ := f
    simp only [List.cons_append, processDocs]
    exact ih _

theorem processDocs_acc (fs : List (FilePath' × List Char)) :
    ∀ acc : List DocSectionR, acc <+: processDocs fs acc := by
  induction fs with
  | nil => intro acc; exact ⟨[], by simp [processDocs]⟩
  | cons f rest ih =>
    intro acc
    obtain ⟨fp, content⟩ := f
    simp only [processDocs]
    exact (List.prefix_append acc _).trans (ih _)

theorem populateCompleted_eq {entries : List FS} {db' : DB}
    (h : populateCompleted entries = some db') :
    db' = ⟨builtComponents entries, builtDocSections entries⟩ ∧
    ((builtComponents entries).map (fun r => r.name)).Nodup ∧
    ((builtDocSections entries).map (fun r => r.name)).Nodup := by
  unfold populateCompleted at h
  split at h
  · rename_i hcond
    exact ⟨(Option.some_inj.mp h).symm, hcond.1, hcond.2⟩
  · cases h

end Reflex

namespace Reflex

theorem osWalkList_mem {path : FilePath'} {es : List FS}
    {r : FilePath' × List (List Char × List Char)} (h : r ∈ osWalkList path es) :
    ∃ e ∈ es, r ∈ osWalk path e := by
  induction es with
  | nil => simp [osWalkList] at h
  | cons e es' ih =>
    simp only [osWalkList] at h
    rcases List.mem_append.mp h with h1 | h2
    · exact ⟨e, by simp, h1⟩
    · obtain ⟨e', he', hr⟩ := ih h2
      exact ⟨e', by simp [he'], hr⟩

theorem osWalk_shape (n : Nat) : ∀ (path : FilePath') (t : FS), sizeOf t ≤ n →
    ∀ r ∈ osWalk path t, ∃ tail, r.1 = path ++ t.nameOf :: tail := by
  induction n with
  | zero =>
    intro path t ht r hr
    cases t with
    | mdfile a b => simp [osWalk] at hr
    | dir a es =>
      rw [FS.dir.sizeOf_spec] at ht
      omega
  | succ n ih =>
    intro path t ht r hr
    cases t with
    | mdfile a b => simp [osWalk] at hr
    | dir a es =>
      simp only [osWalk] at hr
      rcases List.mem_cons.mp hr with h1 | h2
      · exact ⟨[], by rw [h1]; simp [FS.nameOf]⟩
      · obtain ⟨e, he, hre⟩ := osWalkList_mem h2
        have hsz : sizeOf e ≤ n := by
          have h1 := List.sizeOf_lt_of_mem he
          rw [FS.dir.sizeOf_spec] at ht
          omega
        obtain ⟨tail, htail⟩ := ih (path ++ [a]) e hsz r hre
        exact ⟨e.nameOf :: tail, by rw [htail]; simp [FS.nameOf]⟩

theorem osWalk_shape' {path : FilePath'} {t : FS}
    {r : FilePath' × List (List Char × List Char)} (h : r ∈ osWalk path t) :
    ∃ tail, r.1 = path ++ t.nameOf :: tail :=
  osWalk_shape (sizeOf t) path t le_rfl r h

theorem findEntry_name {n : List Char} {es : List FS} {t : FS}
    (h : findEntry n es = some t) : t.nameOf = n := by
  induction es with
  | nil => cases h
  | cons e es' ih =>
    simp only [findEntry] at h
    split at h
    · rename_i heq
      cases h
      exact heq
    · exact ih h

theorem mdFilesOfRoot_shape {r : FilePath' × List (List Char × List Char)}
    {fp : FilePath'} {c : List Char} (h : (fp, c) ∈ mdFilesOfRoot r) :
    ∃ fname, fp = r.1 ++ [fname] := by
  unfold mdFilesOfRoot at h
  obtain ⟨f, _, heq⟩ := List.mem_map.mp h
  exact ⟨f.1, by rw [← (Prod.mk.injEq _ _ _ _).mp heq |>.1]⟩

theorem componentFiles_shape {entries : List FS} {fp : FilePath'} {c : List Char}
    (h : (fp, c) ∈ componentFiles entries) :
    ∃ tail fname, fp = (reflexDocsSeg :: librarySeg :: tail) ++ [fname] := by
  unfold componentFiles at h
  split at h
  · rename_i t hfind
    obtain ⟨l, hl, hmem⟩ := List.mem_flatten.mp h
    obtain ⟨r, hr, hfl⟩ := List.mem_map.mp hl
    rw [← hfl] at hmem
    obtain ⟨fname, hfname⟩ := mdFilesOfRoot_shape hmem
    obtain ⟨tail, htail⟩ := osWalk_shape' hr
    rw [findEntry_name hfind] at htail
    exact ⟨tail, fname, by rw [hfname, htail]; simp⟩
  · simp at h

theorem docFiles_mem {entries : List FS} {fp : FilePath'} {c : List Char}
    (h : (fp, c) ∈ docFiles entries) :
    ∃ r ∈ osWalk [] (FS.dir reflexDocsSeg entries),
      containsSub librarySeg (joinSegs r.1) = false ∧ (fp, c) ∈ mdFilesOfRoot r := by
  unfold docFiles at h
  obtain ⟨l, hl, hmem⟩ := List.mem_flatten.mp h
  obtain ⟨r, hr, hfl⟩ := List.mem_map.mp hl
  rw [← hfl] at hmem
  by_cases hc : containsSub librarySeg (joinSegs r.1) = true
  · rw [if_pos hc] at hmem
    simp at hmem
  · rw [if_neg hc] at hmem
    exact ⟨r, hr, by simpa using hc, hmem⟩

theorem joinSegs_cons_cons (a b : List Char) (rest : FilePath') :
    joinSegs (a :: b :: rest) = a ++ '/' :: joinSegs (b :: rest) := rfl

theorem librarySeg_sub_joinSegs (tail : FilePath') :
    containsSub librarySeg (joinSegs (reflexDocsSeg :: librarySeg :: tail)) = true := by
  apply containsSub_true_of_drop (j := reflexDocsSeg.length + 1)
  rw [joinSegs_cons_cons]
  rw [show reflexDocsSeg.length + 1 = (reflexDocsSeg ++ ['/']).length by simp]
  rw [show reflexDocsSeg ++ '/' :: joinSegs (librarySeg :: tail)
      = (reflexDocsSeg ++ ['/']) ++ joinSegs (librarySeg :: tail) by simp]
  rw [List.drop_left]
  cases tail with
  | nil => exact ⟨[], rfl⟩
  | cons b bs =>
    rw [joinSegs_cons_cons]
    exact List.prefix_append _ _

end Reflex

namespace Reflex

/-- C1: after every completed build (one whose final commit satisfies the
    unique-name constraints of models.py), no catalog contains two records
    with the same name; no record is dropped (each catalog holds exactly one
    record per discovered markdown file); and every record's name is the
    drafted extracted name, suffixed by an underscore and its classification
    exactly once when it collided.  The second and third conjuncts
    characterise the rename precisely: the record a file contributes is
    appended — never overwriting an earlier record — with the drafted name
    suffixed exactly when it equals the name of a record already inserted in
    this build, left untouched otherwise.  In particular, two component
    files both resolving to "Button" with categories "Forms" then "Inputs",
    in that order, yield records named "Button" and "Button_Inputs". -/
theorem C1_collision_resolution :
    (∀ (entries : List FS) (db' : DB), populateCompleted entries = some db' →
      (db'.components.map (fun r => r.name)).Nodup ∧
      (db'.docSections.map (fun r => r.name)).Nodup ∧
      db'.components.length = (componentFiles entries).length ∧
      db'.docSections.length = (docFiles entries).length ∧
      (∀ r ∈ db'.components,
        r.name = (extract_component_info r.content r.file_path).1 ∨
        r.name = (extract_component_info r.content r.file_path).1 ++ '_' :: r.category) ∧
      (∀ r ∈ db'.docSections,
        r.name = docNameOf r.content r.file_path ∨
        r.name = docNameOf r.content r.file_path ++ '_' :: r.sectionName)) ∧
    (∀ (fs1 fs2 : List (FilePath' × List Char)) (fp : FilePath') (content : List Char),
      ∃ tail, processComponents (fs1 ++ (fp, content) :: fs2) []
        = processComponents fs1 []
          ++ (⟨(if (processComponents fs1 []).any
                  (fun q => q.name = (extract_component_info content fp).1)
                then (extract_component_info content fp).1 ++ '_' :: get_category_from_path fp
                else (extract_component_info content fp).1),
               get_category_from_path fp, fp, content,
               (extract_component_info content fp).2⟩ : ComponentR) :: tail) ∧
    (∀ (fs1 fs2 : List (FilePath' × List Char)) (fp : FilePath') (content : List Char),
      ∃ tail, processDocs (fs1 ++ (fp, content) :: fs2) []
        = processDocs fs1 []
          ++ (⟨(if (processDocs fs1 []).any (fun q => q.name = docNameOf content fp)
                then docNameOf content fp ++ '_' :: get_section_from_path fp
                else docNameOf content fp),
               get_section_from_path fp, fp, content,
               docDescOf content⟩ : DocSectionR) :: tail) ∧
    (populateCompleted exButtonEntries).map (fun d => d.components.map (fun r => r.name))
      = some ["Button".toList, "Button_Inputs".toList] := by
  refine ⟨?_, ?_, ?_, by decide⟩
  · intro entries db' h
    obtain ⟨hdb, hnc, hnd⟩ := populateCompleted_eq h
    subst hdb
    refine ⟨hnc, hnd, ?_, ?_, ?_, ?_⟩
    · rw [builtComponents, processComponents_length]
      simp
    · rw [builtDocSections, processDocs_length]
      simp
    · intro r hr
      rcases processComponents_shape _ _ r hr with habs | ⟨fc, _, hp1, hp2, hp3, _, hp5⟩
      · simp at habs
      · rw [hp1, hp2, hp3]
        exact hp5
    · intro r hr
      rcases processDocs_shape _ _ r hr with habs | ⟨fc, _, hp1, hp2, hp3, _, hp5⟩
      · simp at habs
      · rw [hp1, hp2, hp3]
        exact hp5
  · intro fs1 fs2 fp content
    obtain ⟨tail, htail⟩ := processComponents_acc fs2
      (processComponents fs1 [] ++
        [⟨(if (processComponents fs1 []).any
              (fun q => q.name = (extract_component_info content fp).1)
            then (extract_component_info content fp).1 ++ '_' :: get_category_from_path fp
            else (extract_component_info content fp).1),
          get_category_from_path fp, fp, content, (extract_component_info content fp).2⟩])
    refine ⟨tail, ?_⟩
    rw [processComponents_append fs1 ((fp, content) :: fs2) []]
    simp only [processComponents]
    rw [← htail]
    simp
  · intro fs1 fs2 fp content
    obtain ⟨tail, htail⟩ := processDocs_acc fs2
      (processDocs fs1 [] ++
        [⟨(if (processDocs fs1 []).any (fun q => q.name = docNameOf content fp)
            then docNameOf content fp ++ '_' :: get_section_from_path fp
            else docNameOf content fp),
          get_section_from_path fp, fp, content, docDescOf content⟩])
    refine ⟨tail, ?_⟩
    rw [processDocs_append fs1 ((fp, content) :: fs2) []]
    simp only [processDocs]
    rw [← htail]
    simp

theorem C1_collision_resolution_witness :
    ((emptyDB).components.map (fun r => r.name)).Nodup ∧
    ((emptyDB).docSections.map (fun r => r.name)).Nodup ∧
    (emptyDB).components.length = (componentFiles []).length ∧
    (emptyDB).docSections.length = (docFiles []).length ∧
    (∀ r ∈ (emptyDB).components,
      r.name = (extract_component_info r.content r.file_path).1 ∨
      r.name = (extract_component_info r.content r.file_path).1 ++ '_' :: r.category) ∧
    (∀ r ∈ (emptyDB).docSections,
      r.name = docNameOf r.content r.file_path ∨
      r.name = docNameOf r.content r.file_path ++ '_' :: r.sectionName) :=
  C1_collision_resolution.1 [] emptyDB (by decide)

end Reflex

namespace Reflex

/-- C2 counterexample: the claim fails for the DocSection catalog and for
    whitespace-only first items.  (a) A documentation file whose content
    carries a frontmatter `components:` list with first item "Button" and a
    level-1 heading "Heading" is stored in the DocSection catalog under the
    name "Heading", not "Button": the documentation branch never consults
    frontmatter.  (b) For the Component extractor, a first list item that
    trims to the empty string is falsy and falls through to the heading, so
    the extracted name is not the trimmed first item. -/
theorem C2_counterexample :
    ((builtDocSections exFmDocEntries).map (fun r => r.name) = ["Heading".toList] ∧
      fmComponentsName "---\ncomponents:\n- Button\n---\n# Heading\n".toList
        = some "Button".toList ∧
      "Heading".toList ≠ "Button".toList) ∧
    ((extract_component_info "---\ncomponents:\n- \n---\n# Head\n".toList
        [reflexDocsSeg, librarySeg, "a.md".toList]).1 = "Head".toList ∧
      pyStrip " ".toList = [] ∧
      "Head".toList ≠ ([] : List Char)) := by
  decide

/-- C2 (amended): for every document whose content begins with a frontmatter
    block containing a `components:` list — a block opened by a `---` line,
    whose body starts with a non-whitespace character, contains no `---`
    line, and lists under the `components:` key (not occurring earlier in
    the body) a first item `- item` on its own line whose value does not
    trim to the empty string — the name extracted by the Component
    extractor equals that first item's value with surrounding whitespace
    trimmed, regardless of any level-1 headings present in the rest of the
    document.  DocSection records do not obey this rule: their names come
    only from headings or file names (see the counterexample). -/
theorem C2_amended : ∀ (pre ind item post rest : List Char) (fpath : FilePath'),
    (pre = [] ∨ ∃ c pre2, pre = c :: pre2 ∧ pySpace c = false) →
    containsSub componentsKey pre = false →
    (∀ c ∈ ind, pySpace c = true ∧ c ≠ '\n') →
    '\n' ∉ item → pyStrip item ≠ [] →
    containsSub fmClose
      (pre ++ (componentsKey ++ '\n' :: (ind ++ '-' :: (item ++ '\n' :: post)))) = false →
    (extract_component_info
      ('-' :: '-' :: '-' :: '\n' ::
        ((pre ++ (componentsKey ++ '\n' :: (ind ++ '-' :: (item ++ '\n' :: post))))
          ++ (fmClose ++ rest))) fpath).1 = pyStrip item := by
  intro pre ind item post rest fpath hhead hpre hind hitem1 hitem2 hclose
  exact extract_name_of_fm _ fpath (pyStrip item)
    (fmComponentsName_structured pre ind item post rest hhead hpre hind hitem1 hitem2 hclose)
    hitem2

theorem C2_amended_witness :
    (extract_component_info
      ('-' :: '-' :: '-' :: '\n' ::
        (([] ++ (componentsKey ++ '\n' :: ("  ".toList ++ '-' :: (" Button ".toList ++ '\n' :: "title: x".toList))))
          ++ (fmClose ++ "\n# Heading\n".toList))) [reflexDocsSeg]).1
      = pyStrip " Button ".toList :=
  C2_amended [] "  ".toList " Button ".toList "title: x".toList "\n# Heading\n".toList
    [reflexDocsSeg] (Or.inl rfl) (by decide) (by decide) (by decide) (by decide) (by decide)

end Reflex

namespace Reflex

/-- C3: for every file path containing a segment literally named "library",
    the derived category is the segment following the first such occurrence
    with underscores and hyphens replaced by spaces and title-cased
    (`normSeg`), and is "Other" when no next segment exists; analogously for
    "reflex_docs" and the derived section. -/
theorem C3_classification :
    (∀ (pre : FilePath') (next : List Char) (rest : FilePath'), librarySeg ∉ pre →
      get_category_from_path (pre ++ librarySeg :: next :: rest) = normSeg next) ∧
    (∀ pre : FilePath', librarySeg ∉ pre →
      get_category_from_path (pre ++ [librarySeg]) = otherStr) ∧
    (∀ (pre : FilePath') (next : List Char) (rest : FilePath'), reflexDocsSeg ∉ pre →
      get_section_from_path (pre ++ reflexDocsSeg :: next :: rest) = normSeg next) ∧
    (∀ pre : FilePath', reflexDocsSeg ∉ pre →
      get_section_from_path (pre ++ [reflexDocsSeg]) = otherStr) :=
  ⟨get_category_next, get_category_last, get_section_next, get_section_last⟩

theorem C3_classification_witness :
    get_category_from_path ([] ++ librarySeg :: "date_time".toList :: ["picker.md".toList])
      = normSeg "date_time".toList ∧
    get_section_from_path (["docs".toList] ++ [reflexDocsSeg]) = otherStr :=
  ⟨C3_classification.1 [] "date_time".toList ["picker.md".toList] (by decide),
   C3_classification.2.2.2 ["docs".toList] (by decide)⟩

end Reflex

namespace Reflex

/-- C4 counterexample: the two catalogs do NOT share the fallback rule the
    claim states.  (a) For `my-page.md` with empty content, the DocSection
    name is "My Page" (hyphens replaced too), while the claim's rule
    (underscores only, then title-case) gives "My-Page".  (b) The heading
    rule also diverges on pathological input: a bare `#` line before the
    first real heading makes the pattern capture the following plain-text
    line, so content "#\nhello\n\n# Real\n" yields name "hello" in both
    catalogs although its first `# text` heading is "# Real". -/
theorem C4_counterexample :
    (docNameOf [] [reflexDocsSeg, "my-page.md".toList] = "My Page".toList ∧
      specUnderscoreFallback [reflexDocsSeg, "my-page.md".toList] = "My-Page".toList ∧
      "My Page".toList ≠ "My-Page".toList) ∧
    (docNameOf "#\nhello\n\n# Real\n".toList [reflexDocsSeg, "x.md".toList]
        = "hello".toList ∧
      (extract_component_info "#\nhello\n\n# Real\n".toList
        [reflexDocsSeg, librarySeg, "x.md".toList]).1 = "hello".toList ∧
      "hello".toList ≠ "Real".toList) := by
  decide

/-- C4 (amended): for documents without a truthy frontmatter components
    name, whose first line beginning with `#` is a well-formed single-line
    heading `#<whitespace>text` with non-blank text, both the Component
    extractor and the DocSection branch name the record by the heading text,
    trimmed.  With no such heading at all, the Component fallback is the
    stem with underscores replaced by spaces, title-cased, while the
    DocSection fallback additionally replaces hyphens by spaces — the two
    catalogs do not share one fallback rule. -/
theorem C4_amended :
    (∀ (pre ws text rest : List Char) (fpath : FilePath'),
      truthy (fmComponentsName (pre ++ '#' :: (ws ++ (text ++ '\n' :: rest)))) = false →
      noHashBol true pre = true → endBol true pre = true →
      (∃ w0 ws2, ws = w0 :: ws2 ∧ ∀ c ∈ w0 :: ws2, pySpace c = true ∧ c ≠ '\n') →
      '\n' ∉ text → pyStrip text ≠ [] →
      (extract_component_info (pre ++ '#' :: (ws ++ (text ++ '\n' :: rest))) fpath).1
        = pyStrip text) ∧
    (∀ (pre ws text rest : List Char) (fpath : FilePath'),
      noHashBol true pre = true → endBol true pre = true →
      (∃ w0 ws2, ws = w0 :: ws2 ∧ ∀ c ∈ w0 :: ws2, pySpace c = true ∧ c ≠ '\n') →
      '\n' ∉ text → pyStrip text ≠ [] →
      docNameOf (pre ++ '#' :: (ws ++ (text ++ '\n' :: rest))) fpath = pyStrip text) ∧
    (∀ (content : List Char) (fpath : FilePath'),
      truthy (fmComponentsName content) = false → headingSearch content = none →
      (extract_component_info content fpath).1
        = pyTitle (pyReplace '_' ' ' (pyStem (lastSeg fpath)))) ∧
    (∀ (content : List Char) (fpath : FilePath'),
      headingSearch content = none →
      docNameOf content fpath
        = pyTitle (pyReplace '-' ' ' (pyReplace '_' ' ' (pyStem (lastSeg fpath))))) := by
  refine ⟨?_, ?_, extract_name_fallback, docNameOf_fallback⟩
  · intro pre ws text rest fpath h0 hpre1 hpre2 hws htext1 htext2
    have hstr : pyStrip (text.dropWhile pySpace) ≠ [] := by
      rw [pyStrip_dropWhile]
      exact htext2
    have := extract_name_of_heading (pre ++ '#' :: (ws ++ (text ++ '\n' :: rest))) fpath
      (text.dropWhile pySpace) h0
      (headingSearch_structured pre ws text rest hpre1 hpre2 hws htext1 htext2) hstr
    rw [this, pyStrip_dropWhile]
  · intro pre ws text rest fpath hpre1 hpre2 hws htext1 htext2
    have := docNameOf_heading (pre ++ '#' :: (ws ++ (text ++ '\n' :: rest))) fpath
      (text.dropWhile pySpace)
      (headingSearch_structured pre ws text rest hpre1 hpre2 hws htext1 htext2)
    rw [this, pyStrip_dropWhile]

theorem C4_amended_witness :
    docNameOf ([] ++ '#' :: (" ".toList ++ ("Title".toList ++ '\n' :: "body".toList)))
        [reflexDocsSeg, "t.md".toList]
      = pyStrip "Title".toList :=
  C4_amended.2.1 [] " ".toList "Title".toList "body".toList [reflexDocsSeg, "t.md".toList]
    (by decide) (by decide) ⟨' ', [], rfl, by decide⟩ (by decide) (by decide)

end Reflex

namespace Reflex

/-- C5 counterexample: for a component document named via the frontmatter
    `components:` list (not via a heading), the extractor still attempts and
    finds a description — "Great." — contradicting the claim that a
    description is attempted only when the name was found via a heading. -/
theorem C5_counterexample :
    extract_component_info "---\ncomponents:\n- Button\n---\n# Button\nGreat.\n".toList
        [reflexDocsSeg, librarySeg, "button.md".toList]
      = ("Button".toList, "Great.".toList) ∧
    fmComponentsName "---\ncomponents:\n- Button\n---\n# Button\nGreat.\n".toList
      = some "Button".toList ∧
    "Great.".toList ≠ ([] : List Char) := by
  decide

/-- C5 (amended): a description is attempted whenever the name was resolved
    before the filename fallback — via the frontmatter list or via a
    heading — and is the empty string when neither resolved (fallback
    path).  When attempted, it is the block following the line introducing
    the name up to a blank line, a following `#`, or the end, trimmed (shown
    on a frontmatter-named document).  For documents outside the component
    path, the first paragraph after the first `#` heading is always taken,
    regardless of how the name was resolved. -/
theorem C5_amended :
    (∀ (content : List Char) (fpath : FilePath'),
      truthy (fmComponentsName content) = false → headingSearch content = none →
      (extract_component_info content fpath).2 = []) ∧
    (extract_component_info "---\ncomponents:\n- Card\n---\n# Card\nA card box.\n\nMore.".toList
        [reflexDocsSeg, librarySeg, "card.md".toList]).2 = "A card box.".toList ∧
    docDescOf "# Intro\nWelcome here.\nSecond line.\n\nNext".toList
      = "Welcome here.\nSecond line.".toList := by
  refine ⟨extract_desc_empty, by decide, by decide⟩

theorem C5_amended_witness :
    (extract_component_info "plain text only".toList [reflexDocsSeg, "p.md".toList]).2 = [] :=
  C5_amended.1 "plain text only".toList [reflexDocsSeg, "p.md".toList] (by decide) (by decide)

/-- C6 counterexample: the rebuild is not staged in one transaction.  The
    clearing commit (line 79) empties both catalogs before any insert; on
    the `exTripleEntries` tree the final commit fails (duplicate names
    violate the unique constraint), and the visible database afterwards is
    the cleared one — the prior record of `dbPrior` is lost, contradicting
    "prior catalog contents remain intact". -/
theorem C6_counterexample :
    (populateStates dbPrior exTripleEntries).1 = emptyDB ∧
    populateCompleted exTripleEntries = none ∧
    (populateStates dbPrior exTripleEntries).2 = emptyDB ∧
    dbPrior ≠ emptyDB := by
  decide

/-- C6 (amended): the deletions are committed in their own transaction
    before any insert, so the state visible after the clearing commit is the
    empty catalog pair for every prior database; only the inserts are staged
    in the final commit, and if that commit fails the catalogs remain empty
    — prior contents are not preserved. -/
theorem C6_amended : ∀ (db : DB) (entries : List FS),
    (populateStates db entries).1 = emptyDB ∧
    (populateCompleted entries = none → (populateStates db entries).2 = emptyDB) := by
  intro db entries
  refine ⟨rfl, ?_⟩
  intro h
  simp [populateStates, h]

theorem C6_amended_witness :
    (populateStates dbPrior exTripleEntries).2 = emptyDB :=
  (C6_amended dbPrior exTripleEntries).2 (by decide)

end Reflex

namespace Reflex

/-- C7 counterexample: the second walk does not skip exactly the component
    sub-tree — it skips every directory whose path string contains
    "library" as a substring.  In `exMyLibEntries` the markdown file
    `reflex_docs/mylibrary/a.md` lies outside the library sub-tree, yet it
    is cataloged in neither catalog: "no markdown file outside the library
    sub-tree is omitted" is false. -/
theorem C7_counterexample :
    builtComponents exMyLibEntries = [] ∧
    builtDocSections exMyLibEntries = [] ∧
    componentFiles exMyLibEntries = [] ∧
    docFiles exMyLibEntries = [] := by
  decide

/-- C7 (amended): no file is processed twice — a file path stored in the
    Component catalog never appears in the DocSection catalog, because every
    component path extends `reflex_docs/library` and the second walk skips
    every root whose slash-joined path contains "library" as a substring.
    (Markdown files under any other directory whose path contains "library"
    are omitted from both catalogs, not stored as DocSections.) -/
theorem C7_amended : ∀ (entries : List FS) (fp : FilePath'),
    fp ∈ (builtComponents entries).map (fun r => r.file_path) →
    fp ∉ (builtDocSections entries).map (fun r => r.file_path) := by
  intro entries fp hc hd
  rw [builtComponents, processComponents_paths] at hc
  rw [builtDocSections, processDocs_paths] at hd
  simp only [List.map_nil, List.nil_append, List.mem_map] at hc hd
  obtain ⟨⟨fpc, cc⟩, hcmem, hceq⟩ := hc
  obtain ⟨⟨fpd, cd⟩, hdmem, hdeq⟩ := hd
  have hfpeq : fpc = fpd := by
    have := hceq.trans hdeq.symm
    simpa using this
  obtain ⟨tail, fname, hshape⟩ := componentFiles_shape hcmem
  obtain ⟨r, _, hskip, hmd⟩ := docFiles_mem hdmem
  obtain ⟨fname2, hshape2⟩ := mdFilesOfRoot_shape hmd
  have hroots : reflexDocsSeg :: librarySeg :: tail = r.1 ∧ fname = fname2 := by
    have h1 : (reflexDocsSeg :: librarySeg :: tail) ++ [fname] = r.1 ++ [fname2] := by
      rw [← hshape, hfpeq]
      exact hshape2
    have h2 := List.append_inj' h1 rfl
    exact ⟨h2.1, by simpa using h2.2⟩
  rw [← hroots.1] at hskip
  rw [librarySeg_sub_joinSegs tail] at hskip
  cases hskip

theorem C7_amended_witness :
    [reflexDocsSeg, librarySeg, "b.md".toList]
      ∉ (builtDocSections exPlainEntries).map (fun r => r.file_path) :=
  C7_amended exPlainEntries [reflexDocsSeg, librarySeg, "b.md".toList] (by decide)

/-- C8: the rebuild's final state is a function of the file tree alone —
    prior catalog contents are fully replaced — so running the rebuild twice
    over an unchanged file tree (hence the same discovery order, which the
    tree model fixes) yields identical catalogs: the same names,
    classifications, descriptions, file paths and contents, including
    identical collision-suffix assignments. -/
theorem C8_idempotent : ∀ (db db2 : DB) (entries : List FS),
    (populateStates ((populateStates db entries).2) entries).2
      = (populateStates db entries).2 ∧
    (populateStates db entries).2 = (populateStates db2 entries).2 := by
  intro db db2 entries
  exact ⟨rfl, rfl⟩

/-- C9 counterexample: extraction can return an empty name.  For content
    with no frontmatter list and no heading and the degenerate empty file
    path (Python `Path("").stem == ""`), the filename fallback is the empty
    string, so the extracted name is empty — refuting "for every (content,
    file path) input the returned name is non-empty". -/
theorem C9_counterexample :
    (extract_component_info "just text".toList []).1 = [] := by
  decide

/-- C9 (amended): extraction is total (the embedded function is defined on
    all inputs) and returns a non-empty name for every input whose file
    name has a non-empty stem — true in particular of every `*.md` file the
    build discovers; a frontmatter value or heading whose text trims to the
    empty string is falsy and falls through to the next resolution step,
    ending at the filename fallback. -/
theorem C9_amended : ∀ (content : List Char) (fpath : FilePath'),
    pyStem (lastSeg fpath) ≠ [] → (extract_component_info content fpath).1 ≠ [] :=
  extract_name_ne_nil

theorem C9_amended_witness :
    pyStem (lastSeg [reflexDocsSeg, "page.md".toList]) ≠ [] ∧
    (extract_component_info [] [reflexDocsSeg, "page.md".toList]).1 ≠ [] :=
  ⟨by decide, C9_amended [] [reflexDocsSeg, "page.md".toList] (by decide)⟩

/-- C10: every file processed by the component walk has a path of the form
    `reflex_docs :: library :: s :: rest`, so the first "library" segment
    always has a next segment and the "Other" fallback branch of
    `get_category_from_path` is never taken: the category is the normalised
    next segment.  For a markdown file lying directly in the library
    directory the next segment is the file name itself, extension included:
    `library/icon_button.md` yields category "Icon Button.Md". -/
theorem C10_direct_library_file :
    (∀ (entries : List FS) (fp : FilePath') (c : List Char),
      (fp, c) ∈ componentFiles entries →
      ∃ s rest, fp = reflexDocsSeg :: librarySeg :: s :: rest ∧
        get_category_from_path fp = normSeg s) ∧
    get_category_from_path [reflexDocsSeg, librarySeg, "icon_button.md".toList]
      = "Icon Button.Md".toList := by
  constructor
  · intro entries fp c h
    obtain ⟨tail, fname, hfp⟩ := componentFiles_shape h
    obtain ⟨s, rest, hsr⟩ : ∃ s rest, tail ++ [fname] = s :: rest := by
      cases tail with
      | nil => exact ⟨fname, [], rfl⟩
      | cons t0 t' => exact ⟨t0, t' ++ [fname], by simp⟩
    have hfp2 : fp = reflexDocsSeg :: librarySeg :: s :: rest := by
      rw [hfp]
      simp [hsr]
    refine ⟨s, rest, hfp2, ?_⟩
    rw [hfp2,
      show reflexDocsSeg :: librarySeg :: s :: rest
        = [reflexDocsSeg] ++ librarySeg :: s :: rest by simp]
    exact get_category_next [reflexDocsSeg] s rest (by decide)
  · decide

theorem C10_direct_library_file_witness :
    ∃ s rest,
      ([reflexDocsSeg, librarySeg, "b.md".toList] : FilePath')
        = reflexDocsSeg :: librarySeg :: s :: rest ∧
      get_category_from_path [reflexDocsSeg, librarySeg, "b.md".toList] = normSeg s :=
  C10_direct_library_file.1 exPlainEntries [reflexDocsSeg, librarySeg, "b.md".toList]
    "# B\n".toList (by decide)

end Reflex
